import Mathlib

/-!
Verification of the citation reconciliation pipeline of the FARES backend
(`openai_service.py`).  The development shallowly embeds:

* the association-dictionary bookkeeping of `OpenAIService.chat`
  (`file_cache`, `citation_mapping`, `seen_files`), modelling Python
  `dict` semantics (insertion order preserved, last write wins) by
  ordered association lists;
* the per-annotation processing loop of `OpenAIService.chat`
  (lines 157-224 of the source), which resolves file identifiers,
  gates on download links, deduplicates citations, renumbers markers
  densely and finally rewrites the response text;
* Python `str.replace` (all non-overlapping occurrences, left to
  right, with the empty-pattern insertion behaviour) over `List Char`;
* `SourceLinker.__init__` (reference-index loading with its two
  recovered failure modes and its log events);
* the run-status poll loop of `OpenAIService.chat` (lines 122-144).

Upstream effects are injected as pure functions: `resolver` stands for
`client.files.retrieve` (`none` = the lookup raised), `linker` stands
for `SourceLinker.get_download_link`, and `runs : Nat → RunInfo` gives
the value of the n-th `runs.retrieve` poll.
-/

namespace Fares

open List

/-- Ordered association list lookup: first binding for the key, as a
Python `dict` read (keys are kept unique by `updateA`). -/
def lookupA : List (String × String) → String → Option String
  | [], _ => none
  | p :: rest, k => if k = p.1 then some p.2 else lookupA rest k

/-- Python `dict` write: an existing key keeps its position and gets the
new value, a fresh key is appended at the end (insertion order). -/
def updateA : List (String × String) → String → String → List (String × String)
  | [], k, v => [(k, v)]
  | p :: rest, k, v => if p.1 = k then (k, v) :: rest else p :: updateA rest k v

/-- Python `s[-n:]`: the last `n` characters (the whole string when it is
shorter than `n`). -/
def lastChars (s : String) (n : Nat) : String :=
  String.mk (s.data.drop (s.data.length - n))

/-- `startsWithL pat s`: `pat` is a prefix of `s` (character lists). -/
def startsWithL : List Char → List Char → Bool
  | [], _ => true
  | _ :: _, [] => false
  | p :: ps, c :: cs => p == c && startsWithL ps cs

/-- Scanner of Python `str.replace` for a non-empty pattern: at `skip = 0`
try to match the pattern at the current position; on a match emit the
replacement and skip the matched characters (no overlapping matches); on a
mismatch emit the current character.  `skip > 0` means the scanner is still
inside a matched region. -/
def replaceAux (pat rep : List Char) : List Char → Nat → List Char
  | [], _ => []
  | c :: rest, skip =>
    match skip with
    | k + 1 => replaceAux pat rep rest k
    | 0 =>
      if startsWithL pat (c :: rest) then
        rep ++ replaceAux pat rep rest (pat.length - 1)
      else
        c :: replaceAux pat rep rest 0

/-- Interleaving used by Python `str.replace` with an empty pattern:
`interAux rep [a, b] = [a] ++ rep ++ [b] ++ rep`. -/
def interAux (rep : List Char) : List Char → List Char
  | [] => []
  | c :: rest => c :: (rep ++ interAux rep rest)

/-- Python `str.replace` on character lists: every non-overlapping
occurrence of `pat`, scanned left to right, is replaced by `rep`; the
empty pattern inserts `rep` at every position, as in Python. -/
def replaceL (s pat rep : List Char) : List Char :=
  match pat with
  | [] => rep ++ interAux rep s
  | _ :: _ => replaceAux pat rep s 0

/-- Python `str.replace` on strings. -/
def pyReplace (s pat rep : String) : String :=
  String.mk (replaceL s.data pat.data rep.data)

/-- `containsSubB s pat`: `pat` occurs as a contiguous substring of `s`. -/
def containsSubB (s pat : List Char) : Bool :=
  (List.range (s.length + 1)).any fun j => startsWithL pat (s.drop j)

/-- Length of the longest occurrence of one of `pats` starting exactly at
the head of `s` (`0` when no non-empty pattern matches here). -/
def coverHere (pats : List (List Char)) (s : List Char) : Nat :=
  pats.foldl (fun acc pat =>
    if pat.length > 0 && startsWithL pat s then max acc pat.length else acc) 0

/-- Characters of `s` that are not part of any occurrence of any of the
patterns: a scan carrying the number of positions still covered by an
occurrence that started earlier; a character is emitted iff no occurrence
covers it. -/
def uncovAuxM (pats : List (List Char)) : List Char → Nat → List Char
  | [], _ => []
  | c :: rest, carry =>
    match max carry (coverHere pats (c :: rest)) with
    | 0 => c :: uncovAuxM pats rest 0
    | k + 1 => uncovAuxM pats rest k

/-- The characters of `s` lying outside every occurrence of every pattern
in `pats`, in their original order. -/
def unmarked (pats : List (List Char)) (s : List Char) : List Char :=
  uncovAuxM pats s 0

/-- A message annotation as consumed by `OpenAIService.chat`:
`text` is the literal marker substring (`annotation.text`), and
`file_citation` is `annotation.file_citation.file_id` when the annotation
has a `file_citation` attribute. -/
structure Ann where
  text : String
  file_citation : Option String
deriving DecidableEq

/-- The `Citation` record of `openai_service.py`. -/
structure Citation where
  file_id : String
  file_name : String
  quote : String
  text : String
  download_link : Option String
deriving DecidableEq

/-- The loop state of the citation-processing section of
`OpenAIService.chat`: `citations`, `file_cache`, `citation_mapping` and
`seen_files` are the Python locals of the same names; `resolverCalls`
records, in order, the identifiers passed to `client.files.retrieve`
(one entry per actual upstream call). -/
structure RecState where
  citations : List Citation
  file_cache : List (String × String)
  citation_mapping : List (String × String)
  seen_files : List (String × String)
  resolverCalls : List String
deriving DecidableEq

/-- Initial loop state (all dictionaries empty). -/
def initState : RecState := ⟨[], [], [], [], []⟩

/-- File-name resolution for one identifier: the upstream metadata lookup
when it succeeds, otherwise the fallback
`f"Archivo {file_citation.file_id[-8:]}"`. -/
def resolveName (resolver : String → Option String) (fid : String) : String :=
  match resolver fid with
  | some n => n
  | none => "Archivo " ++ lastChars fid 8

/-- Lines 175-184 of the source: consult `file_cache`; on a miss call the
resolver (recording the call) and cache the resulting name — the fallback
name as well when the lookup raised. Returns the name and updated state. -/
def cacheStep (resolver : String → Option String) (st : RecState) (fid : String) :
    String × RecState :=
  match lookupA st.file_cache fid with
  | some n => (n, st)
  | none =>
    let n := resolveName resolver fid
    (n, { st with
            file_cache := updateA st.file_cache fid n,
            resolverCalls := st.resolverCalls ++ [fid] })

/-- One iteration of the annotation loop of `OpenAIService.chat`
(lines 170-220): skip annotations without a `file_citation`; resolve the
file name (cached); look up the download link; on a link, either reuse the
marker of an already seen file or accept a new densely numbered citation;
without a link, map the marker to the empty string. -/
def processAnn (linker resolver : String → Option String) (st : RecState) (a : Ann) :
    RecState :=
  match a.file_citation with
  | none => st
  | some fid =>
    let fn := cacheStep resolver st fid
    let file_name := fn.1
    let st1 := fn.2
    match linker file_name with
    | some link =>
      match lookupA st1.seen_files fid with
      | some existing =>
        { st1 with citation_mapping := updateA st1.citation_mapping a.text existing }
      | none =>
        let new_marker := "[" ++ toString (st1.citations.length + 1) ++ "]"
        { st1 with
            citations := st1.citations ++
              [⟨fid, file_name, "", new_marker, some link⟩],
            citation_mapping := updateA st1.citation_mapping a.text new_marker,
            seen_files := updateA st1.seen_files fid new_marker }
    | none =>
      { st1 with citation_mapping := updateA st1.citation_mapping a.text "" }

/-- Run the annotation loop from a given state. -/
def runFrom (linker resolver : String → Option String) (st : RecState)
    (anns : List Ann) : RecState :=
  anns.foldl (processAnn linker resolver) st

/-- The whole reconciliation state after one pass over the annotations. -/
def runRec (anns : List Ann) (linker resolver : String → Option String) : RecState :=
  runFrom linker resolver initState anns

/-- Lines 222-224 of the source: apply every mapping entry, in dictionary
insertion order, by full-text substitution. -/
def applyMapping (mapping : List (String × String)) (t : String) : String :=
  mapping.foldl (fun acc p => pyReplace acc p.1 p.2) t

/-- Result of one reconciliation pass. -/
structure ProcResult where
  finalText : String
  citations : List Citation
deriving DecidableEq

/-- One full reconciliation pass of `OpenAIService.chat`: run the
annotation loop, then rewrite the raw text through the marker table. -/
def process (raw : String) (anns : List Ann)
    (linker resolver : String → Option String) : ProcResult :=
  let st := runRec anns linker resolver
  ⟨applyMapping st.citation_mapping raw, st.citations⟩

/-- Severity of a log event emitted by `SourceLinker.__init__`. -/
inductive LogLevel where
  | info
  | warning
  | error
deriving DecidableEq

/-- One record of the reference JSON array, as classified by the guard
`isinstance(item, dict) and "file" in item and "link" in item and "title"
in item`: either it passes with its three fields, or it is invalid. -/
inductive RefItem where
  | valid (file title link : String)
  | invalid
deriving DecidableEq

/-- What loading `fuente_agente_v1.json` can yield: the file is missing
(`FileNotFoundError`), its contents are not JSON (`json.JSONDecodeError`),
or it parses to an array of records. -/
inductive RefDoc where
  | missing
  | malformed
  | parsed (items : List RefItem)
deriving DecidableEq

/-- The state built by `SourceLinker.__init__`: the two lookup
dictionaries plus the levels of the log events it emitted, in order. -/
structure SourceLinker where
  file_to_link : List (String × String)
  file_to_title : List (String × String)
  logs : List LogLevel
deriving DecidableEq

/-- `SourceLinker.__init__` (lines 38-70 of the source): on a missing or
malformed reference document, both lookup dictionaries are left empty and
one error-level message is logged; otherwise every valid record populates
both dictionaries, every invalid record logs a warning, and a final
info-level summary is logged. -/
def sourceLinkerInit : RefDoc → SourceLinker
  | RefDoc.missing => ⟨[], [], [LogLevel.error]⟩
  | RefDoc.malformed => ⟨[], [], [LogLevel.error]⟩
  | RefDoc.parsed items =>
    let st := items.foldl (fun st item =>
      match item with
      | RefItem.valid f t l =>
        { st with
            file_to_link := updateA st.file_to_link f l,
            file_to_title := updateA st.file_to_title f t }
      | RefItem.invalid => { st with logs := st.logs ++ [LogLevel.warning] })
      (⟨[], [], []⟩ : SourceLinker)
    { st with logs := st.logs ++ [LogLevel.info] }

/-- `SourceLinker.get_download_link`. -/
def get_download_link (sl : SourceLinker) (filename : String) : Option String :=
  lookupA sl.file_to_link filename

/-- `SourceLinker.get_title`. -/
def get_title (sl : SourceLinker) (filename : String) : Option String :=
  lookupA sl.file_to_title filename

/-- The run object returned by one `runs.retrieve` poll: its `status`
string and its `last_error` detail. -/
structure RunInfo where
  status : String
  last_error : String
deriving DecidableEq

/-- The statuses on which the poll loop breaks
(`["completed", "failed", "cancelled"]` in the source). -/
def terminalStatuses : List String := ["completed", "failed", "cancelled"]

/-- The poll loop of `OpenAIService.chat` (lines 122-135): starting at
iteration count `iters` with `fuel` remaining attempts, retrieve the next
run status; break on a terminal status, otherwise sleep and continue.
Returns the final iteration count and the run that caused the break
(`none` when the attempt budget ran out). -/
def pollGo (runs : Nat → RunInfo) : Nat → Nat → Nat × Option RunInfo
  | iters, 0 => (iters, none)
  | iters, fuel + 1 =>
    let rs := runs iters
    if rs.status ∈ terminalStatuses then (iters, some rs)
    else pollGo runs (iters + 1) fuel

/-- `max_iterations = 60` in the source. -/
def max_iterations : Nat := 60

/-- The poll loop run from its initial state. -/
def pollRun (runs : Nat → RunInfo) : Nat × Option RunInfo :=
  pollGo runs 0 max_iterations

/-- Number of `runs.retrieve` status checks the poll loop performs: one
per completed iteration plus one for the breaking check. -/
def checksPerformed (runs : Nat → RunInfo) : Nat :=
  match pollRun runs with
  | (i, some _) => i + 1
  | (i, none) => i

/-- Outcome of the run phase of `chat`: the timeout raise, the
`"Run failed: ..."` raise, the `"Run ended with unexpected status: ..."`
raise, or proceeding with a completed run. -/
inductive ChatOutcome where
  | timeout
  | runFailed (msg : String)
  | unexpectedStatus (msg : String)
  | success (rs : RunInfo)
deriving DecidableEq

/-- Lines 122-144 of the source: run the poll loop, raise the timeout when
the budget is exhausted, raise `"Run failed: {last_error}"` on a `failed`
status, raise the unexpected-status error on any other non-`completed`
status (in particular `cancelled`), otherwise proceed. -/
def chatRunPhase (runs : Nat → RunInfo) : ChatOutcome :=
  match pollRun runs with
  | (_, none) => ChatOutcome.timeout
  | (_, some rs) =>
    if rs.status = "failed" then
      ChatOutcome.runFailed ("Run failed: " ++ rs.last_error)
    else if rs.status ≠ "completed" then
      ChatOutcome.unexpectedStatus ("Run ended with unexpected status: " ++ rs.status)
    else ChatOutcome.success rs

/-- The status sequence `queued, in_progress, in_progress, completed` of
spec scenario 6. -/
def exampleRuns : Nat → RunInfo := fun i =>
  if i = 0 then ⟨"queued", ""⟩
  else if i ≤ 2 then ⟨"in_progress", ""⟩
  else ⟨"completed", ""⟩

/-- Invariant: every cached name is the (deterministic) resolution of its
identifier — the fallback name when the resolver fails. -/
def CacheInv (resolver : String → Option String) (st : RecState) : Prop :=
  ∀ p ∈ st.file_cache, p.2 = resolveName resolver p.1

/-- Invariant: every accepted citation carries the resolved file name and
the (present) download link of that name. -/
def CitInv (linker resolver : String → Option String) (st : RecState) : Prop :=
  ∀ c ∈ st.citations,
    c.file_name = resolveName resolver c.file_id ∧
    c.download_link = linker (resolveName resolver c.file_id) ∧
    (linker (resolveName resolver c.file_id)).isSome = true

/-- Invariant: for each file identifier, the citations carrying it are
exactly one with the marker recorded in `seen_files` (or none when the
identifier has not been accepted). -/
def SeenInv (st : RecState) : Prop :=
  ∀ fid, ((st.citations.filter fun c => c.file_id == fid).map fun c => c.text) =
    (lookupA st.seen_files fid).toList

/-- Invariant: the accepted citations carry the dense markers
`"[1]", ..., "[k]"` in order. -/
def DenseInv (st : RecState) : Prop :=
  (st.citations.map fun c => c.text) =
    ((List.range st.citations.length).map fun i => "[" ++ toString (i + 1) ++ "]")

/-- Invariant: the resolver was called at most once per identifier, and
exactly for the identifiers present in the cache. -/
def CallsInv (st : RecState) : Prop :=
  st.resolverCalls.Nodup ∧
  ∀ fid, fid ∈ st.resolverCalls ↔ (lookupA st.file_cache fid).isSome = true

/-- All loop invariants together. -/
def Inv (linker resolver : String → Option String) (st : RecState) : Prop :=
  CacheInv resolver st ∧ CitInv linker resolver st ∧ SeenInv st ∧
    DenseInv st ∧ CallsInv st

/-- Reading back the key just written returns the new value. -/
lemma lookupA_updateA_self (l : List (String × String)) (k v : String) :
    lookupA (updateA l k v) k = some v := by
  induction l with
  | nil => simp [updateA, lookupA]
  | cons p rest ih =>
    by_cases h : p.1 = k
    · simp [updateA, h, lookupA]
    · simp only [updateA, if_neg h, lookupA]
      rw [if_neg fun hh => h hh.symm]
      exact ih

/-- Writing one key leaves every other key's binding unchanged. -/
lemma lookupA_updateA_ne (l : List (String × String)) (k v k' : String)
    (h : k' ≠ k) : lookupA (updateA l k v) k' = lookupA l k' := by
  induction l with
  | nil => simp [updateA, lookupA, h]
  | cons p rest ih =>
    by_cases hp : p.1 = k
    · simp [updateA, hp, lookupA, h, hp ▸ h]
    · simp only [updateA, if_neg hp, lookupA, ih]

/-- A successful lookup exhibits a member of the list. -/
lemma lookupA_mem (l : List (String × String)) (k v : String)
    (h : lookupA l k = some v) : (k, v) ∈ l := by
  induction l with
  | nil => simp [lookupA] at h
  | cons p rest ih =>
    by_cases hk : k = p.1
    · obtain ⟨p1, p2⟩ := p
      simp only [lookupA, if_pos hk] at h
      obtain rfl : p2 = v := Option.some.inj h
      subst hk
      exact List.mem_cons_self _ _
    · simp only [lookupA, if_neg hk] at h
      exact List.mem_cons_of_mem _ (ih h)

/-- Members after a write: the new binding or an old member. -/
lemma mem_updateA (l : List (String × String)) (k v : String) (p : String × String)
    (h : p ∈ updateA l k v) : p = (k, v) ∨ p ∈ l := by
  induction l with
  | nil => simpa [updateA] using h
  | cons q rest ih =>
    by_cases hq : q.1 = k
    · simp only [updateA, if_pos hq, List.mem_cons] at h
      rcases h with h | h
      · exact Or.inl h
      · exact Or.inr (List.mem_cons_of_mem _ h)
    · simp only [updateA, if_neg hq, List.mem_cons] at h
      rcases h with h | h
      · exact Or.inr (h ▸ List.mem_cons_self _ _)
      · rcases ih h with h' | h'
        · exact Or.inl h'
        · exact Or.inr (List.mem_cons_of_mem _ h')

/-- The uncovered characters form a subsequence of the text. -/
lemma uncovAuxM_sublist (pats : List (List Char)) :
    ∀ s c, uncovAuxM pats s c <+ s := by
  intro s
  induction s with
  | nil => intro c; simp [uncovAuxM]
  | cons ch rest ih =>
    intro c
    simp only [uncovAuxM]
    cases max c (coverHere pats (ch :: rest)) with
    | zero => exact List.Sublist.cons₂ _ (ih 0)
    | succ k => exact List.Sublist.cons _ (ih k)

/-- A string is a subsequence of its interleaving with a replacement. -/
lemma inter_sublist (rep : List Char) : ∀ s, s <+ rep ++ interAux rep s := by
  intro s
  induction s with
  | nil => exact List.nil_sublist _
  | cons c rest ih =>
    simp only [interAux]
    exact (List.Sublist.cons₂ _ ih).trans (List.sublist_append_right _ _)

/-- An empty pattern covers nothing. -/
lemma uncovAuxM_nil_pat : ∀ s : List Char, uncovAuxM [([] : List Char)] s 0 = s := by
  intro s
  induction s with
  | nil => simp [uncovAuxM]
  | cons c rest ih => simp [uncovAuxM, coverHere, ih]

/-- A matching head position contributes the pattern length to coverage. -/
lemma coverHere_single_pos (p : Char) (ps s : List Char)
    (h : startsWithL (p :: ps) s = true) :
    coverHere [p :: ps] s = ps.length + 1 := by
  simp [coverHere, h]

/-- A non-matching head position contributes no coverage. -/
lemma coverHere_single_neg (p : Char) (ps s : List Char)
    (h : startsWithL (p :: ps) s = false) :
    coverHere [p :: ps] s = 0 := by
  simp [coverHere, h]

/-- Core of the text-fidelity argument for a single non-empty pattern: the
characters outside every occurrence survive the replacement scan, for any
carry at least as large as the scanner's skip counter. -/
lemma uncov_replaceAux (p : Char) (ps rep : List Char) :
    ∀ s c k, k ≤ c → uncovAuxM [p :: ps] s c <+ replaceAux (p :: ps) rep s k := by
  intro s
  induction s with
  | nil => intro c k _; simp [uncovAuxM, replaceAux]
  | cons ch rest ih =>
    intro c k hk
    cases hm : startsWithL (p :: ps) (ch :: rest) with
    | true =>
      have hcov := coverHere_single_pos p ps (ch :: rest) hm
      have hL : ps.length + 1 ≤ max c (ps.length + 1) := Nat.le_max_right _ _
      have hc : c ≤ max c (ps.length + 1) := Nat.le_max_left _ _
      cases hmx : max c (ps.length + 1) with
      | zero => omega
      | succ m =>
        rw [hmx] at hL hc
        cases k with
        | zero =>
          simp only [uncovAuxM, hcov, hmx, replaceAux, hm, if_true,
            List.length_cons, Nat.succ_sub_one]
          exact (ih m ps.length (by omega)).trans (List.sublist_append_right _ _)
        | succ j =>
          simp only [uncovAuxM, hcov, hmx, replaceAux]
          exact ih m j (by omega)
    | false =>
      have hcov := coverHere_single_neg p ps (ch :: rest) hm
      cases k with
      | zero =>
        cases hc : c with
        | zero =>
          simp only [uncovAuxM, hcov, hc, Nat.max_self, replaceAux, hm]
          simp only [Bool.false_eq_true, if_false]
          exact List.Sublist.cons₂ _ (ih 0 0 le_rfl)
        | succ m =>
          simp only [uncovAuxM, hcov, hc, Nat.max_zero, replaceAux, hm]
          simp only [Bool.false_eq_true, if_false]
          exact List.Sublist.cons _ (ih m 0 (Nat.zero_le m))
      | succ j =>
        cases hc : c with
        | zero => omega
        | succ m =>
          simp only [uncovAuxM, hcov, hc, Nat.max_zero, replaceAux]
          exact ih m j (by omega)

/-- Unfolding: the loop does nothing on an empty annotation list. -/
lemma runFrom_nil (l r : String → Option String) (st : RecState) :
    runFrom l r st [] = st := rfl

/-- Unfolding: one loop iteration followed by the rest. -/
lemma runFrom_cons (l r : String → Option String) (st : RecState) (a : Ann)
    (anns : List Ann) :
    runFrom l r st (a :: anns) = runFrom l r (processAnn l r st a) anns := rfl

/-- The loop over a concatenation is the composition of the loops. -/
lemma runFrom_append (l r : String → Option String) (st : RecState)
    (s1 s2 : List Ann) :
    runFrom l r st (s1 ++ s2) = runFrom l r (runFrom l r st s1) s2 := by
  simp [runFrom, List.foldl_append]

/-- Under the cache invariant, the name produced by the cache step is the
deterministic resolution of the identifier. -/
lemma cacheStep_fst (r : String → Option String) (st : RecState) (fid : String)
    (hC : CacheInv r st) : (cacheStep r st fid).1 = resolveName r fid := by
  cases hc : lookupA st.file_cache fid with
  | none => simp [cacheStep, hc]
  | some n => simpa [cacheStep, hc] using hC _ (lookupA_mem _ _ _ hc)

/-- The cache step does not touch the citation list. -/
lemma cacheStep_citations (r : String → Option String) (st : RecState)
    (fid : String) : (cacheStep r st fid).2.citations = st.citations := by
  cases hc : lookupA st.file_cache fid <;> simp [cacheStep, hc]

/-- The cache step does not touch the seen-files dictionary. -/
lemma cacheStep_seen_files (r : String → Option String) (st : RecState)
    (fid : String) : (cacheStep r st fid).2.seen_files = st.seen_files := by
  cases hc : lookupA st.file_cache fid <;> simp [cacheStep, hc]

/-- The cache step does not touch the marker-rewrite dictionary. -/
lemma cacheStep_citation_mapping (r : String → Option String) (st : RecState)
    (fid : String) :
    (cacheStep r st fid).2.citation_mapping = st.citation_mapping := by
  cases hc : lookupA st.file_cache fid <;> simp [cacheStep, hc]

/-- The cache step preserves the cache invariant. -/
lemma cacheStep_cacheInv (r : String → Option String) (st : RecState)
    (fid : String) (hC : CacheInv r st) : CacheInv r (cacheStep r st fid).2 := by
  cases hc : lookupA st.file_cache fid with
  | some n => simpa [cacheStep, hc] using hC
  | none =>
    intro p hp
    simp only [cacheStep, hc] at hp
    rcases mem_updateA _ _ _ _ hp with h | h
    · rw [h]
    · exact hC _ h

/-- The cache step preserves the call-accounting invariant. -/
lemma cacheStep_callsInv (r : String → Option String) (st : RecState)
    (fid : String) (hCalls : CallsInv st) : CallsInv (cacheStep r st fid).2 := by
  cases hc : lookupA st.file_cache fid with
  | some n => simpa [cacheStep, hc] using hCalls
  | none =>
    obtain ⟨hnd, hiff⟩ := hCalls
    have hfid : fid ∉ st.resolverCalls := by
      intro hmem
      have h := (hiff fid).mp hmem
      rw [hc] at h
      simp at h
    constructor
    · simp only [cacheStep, hc]
      simp [List.nodup_append, hnd, hfid]
    · intro g
      simp only [cacheStep, hc]
      by_cases hg : g = fid
      · subst hg
        simp [lookupA_updateA_self]
      · rw [lookupA_updateA_ne _ _ _ _ hg]
        simp [List.mem_append, hg, hiff g]

/-- One loop iteration preserves the cache invariant. -/
lemma cacheInv_step (l r : String → Option String) (st : RecState) (a : Ann)
    (hC : CacheInv r st) : CacheInv r (processAnn l r st a) := by
  cases ha : a.file_citation with
  | none => simpa [processAnn, ha] using hC
  | some g =>
    have hC1 := cacheStep_cacheInv r st g hC
    cases hl : l ((cacheStep r st g).1) with
    | none => simp only [processAnn, ha, hl]; exact hC1
    | some link =>
      cases hs : lookupA (cacheStep r st g).2.seen_files g with
      | some ex => simp only [processAnn, ha, hl, hs]; exact hC1
      | none => simp only [processAnn, ha, hl, hs]; exact hC1

/-- One loop iteration preserves every loop invariant. -/
lemma inv_step (l r : String → Option String) (st : RecState) (a : Ann)
    (h : Inv l r st) : Inv l r (processAnn l r st a) := by
  obtain ⟨hC, hCit, hSeen, hDense, hCalls⟩ := h
  cases ha : a.file_citation with
  | none =>
    simp only [processAnn, ha]
    exact ⟨hC, hCit, hSeen, hDense, hCalls⟩
  | some fid =>
    have hfst := cacheStep_fst r st fid hC
    have hcit := cacheStep_citations r st fid
    have hseen := cacheStep_seen_files r st fid
    have hC1 := cacheStep_cacheInv r st fid hC
    have hCalls1 := cacheStep_callsInv r st fid hCalls
    cases hl : l (resolveName r fid) with
    | none =>
      simp only [processAnn, ha, hfst, hl]
      refine ⟨hC1, ?_, ?_, ?_, hCalls1⟩
      · intro c hc
        dsimp only at hc
        rw [hcit] at hc
        exact hCit c hc
      · intro g
        dsimp only
        rw [hcit, hseen]
        exact hSeen g
      · dsimp only [DenseInv]
        rw [hcit]
        exact hDense
    | some link =>
      cases hs : lookupA st.seen_files fid with
      | some existing =>
        simp only [processAnn, ha, hfst, hl, hseen, hs]
        refine ⟨hC1, ?_, ?_, ?_, hCalls1⟩
        · intro c hc
          dsimp only at hc
          rw [hcit] at hc
          exact hCit c hc
        · intro g
          dsimp only
          rw [hcit]
          exact hSeen g
        · dsimp only [DenseInv]
          rw [hcit]
          exact hDense
      | none =>
        simp only [processAnn, ha, hfst, hl, hseen, hs]
        refine ⟨hC1, ?_, ?_, ?_, hCalls1⟩
        · intro c hc
          dsimp only at hc
          rw [hcit] at hc
          rcases List.mem_append.mp hc with h | h
          · exact hCit c h
          · simp only [List.mem_singleton] at h
            subst h
            refine ⟨rfl, by rw [hl], by rw [hl]; rfl⟩
        · intro g
          dsimp only
          rw [hcit]
          by_cases hg : g = fid
          · subst hg
            rw [List.filter_append, lookupA_updateA_self]
            have h0 : (st.citations.filter fun c => c.file_id == g) = [] := by
              have h1 := hSeen g
              rw [hs] at h1
              simpa using h1
            rw [h0]
            simp
          · rw [List.filter_append, lookupA_updateA_ne _ _ _ _ hg]
            have hne : (fid == g) = false := beq_eq_false_iff_ne.mpr (Ne.symm hg)
            simp only [List.filter_cons, hne, List.filter_nil, Bool.false_eq_true,
              if_false, List.append_nil]
            exact hSeen g
        · dsimp only [DenseInv]
          rw [hcit]
          rw [List.map_append, hDense, List.length_append]
          simp [List.range_succ]

/-- The whole loop preserves every invariant. -/
lemma inv_fold (l r : String → Option String) (anns : List Ann) :
    ∀ st, Inv l r st → Inv l r (runFrom l r st anns) := by
  induction anns with
  | nil => intro st h; exact h
  | cons a rest ih => intro st h; exact ih _ (inv_step l r st a h)

/-- The whole loop preserves the cache invariant. -/
lemma cacheInv_fold (l r : String → Option String) (anns : List Ann) :
    ∀ st, CacheInv r st → CacheInv r (runFrom l r st anns) := by
  induction anns with
  | nil => intro st h; exact h
  | cons a rest ih => intro st h; exact ih _ (cacheInv_step l r st a h)

/-- The invariants hold at the initial state. -/
lemma inv_init (l r : String → Option String) : Inv l r initState := by
  refine ⟨?_, ?_, ?_, ?_, ?_, ?_⟩
  · intro p hp
    simp [initState] at hp
  · intro c hc
    simp [initState] at hc
  · intro fid
    simp [initState, lookupA]
  · simp [DenseInv, initState]
  · simp [initState]
  · intro fid
    simp [initState, lookupA]

/-- The invariants hold after a full reconciliation pass. -/
lemma inv_runRec (anns : List Ann) (l r : String → Option String) :
    Inv l r (runRec anns l r) :=
  inv_fold l r anns initState (inv_init l r)

/-- An iteration whose annotation has no file citation or a different
marker leaves a marker's rewrite entry unchanged. -/
lemma map_unchanged_step (l r : String → Option String) (st : RecState) (a : Ann)
    (m : String) (h : a.file_citation = none ∨ a.text ≠ m) :
    lookupA (processAnn l r st a).citation_mapping m =
      lookupA st.citation_mapping m := by
  rcases h with h | h
  · simp [processAnn, h]
  · cases ha : a.file_citation with
    | none => simp [processAnn, ha]
    | some fid =>
      have hmap := cacheStep_citation_mapping r st fid
      have hseen := cacheStep_seen_files r st fid
      cases hl : l ((cacheStep r st fid).1) with
      | none =>
        simp only [processAnn, ha, hl, hmap]
        rw [lookupA_updateA_ne _ _ _ _ (Ne.symm h)]
      | some link =>
        cases hs : lookupA st.seen_files fid with
        | some ex =>
          simp only [processAnn, ha, hl, hmap, hseen, hs]
          rw [lookupA_updateA_ne _ _ _ _ (Ne.symm h)]
        | none =>
          simp only [processAnn, ha, hl, hmap, hseen, hs]
          rw [lookupA_updateA_ne _ _ _ _ (Ne.symm h)]

/-- An iteration whose annotation is link-rejected maps its marker to the
empty string. -/
lemma map_reject_step (l r : String → Option String) (st : RecState) (a : Ann)
    (fid : String) (ha : a.file_citation = some fid) (hC : CacheInv r st)
    (hno : l (resolveName r fid) = none) :
    lookupA (processAnn l r st a).citation_mapping a.text = some "" := by
  have hfst := cacheStep_fst r st fid hC
  simp only [processAnn, ha, hfst, hno]
  rw [lookupA_updateA_self]

/-- An iteration whose annotation is accepted maps its marker to the
display marker recorded for its identifier in `seen_files`. -/
lemma map_accept_step (l r : String → Option String) (st : RecState) (a : Ann)
    (fid : String) (ha : a.file_citation = some fid) (hC : CacheInv r st)
    (hyes : (l (resolveName r fid)).isSome = true) :
    ∃ v, lookupA (processAnn l r st a).citation_mapping a.text = some v ∧
      lookupA (processAnn l r st a).seen_files fid = some v := by
  obtain ⟨link, hl⟩ := Option.isSome_iff_exists.mp hyes
  have hfst := cacheStep_fst r st fid hC
  have hseen := cacheStep_seen_files r st fid
  cases hs : lookupA st.seen_files fid with
  | some ex =>
    refine ⟨ex, ?_, ?_⟩
    · simp only [processAnn, ha, hfst, hl, hseen, hs]
      rw [lookupA_updateA_self]
    · simp only [processAnn, ha, hfst, hl, hseen, hs]
  | none =>
    refine ⟨"[" ++ toString ((cacheStep r st fid).2.citations.length + 1) ++ "]",
      ?_, ?_⟩
    · simp only [processAnn, ha, hfst, hl, hseen, hs]
      rw [lookupA_updateA_self]
    · simp only [processAnn, ha, hfst, hl, hseen, hs]
      rw [lookupA_updateA_self]

/-- A marker already recorded in `seen_files` keeps its value through any
iteration. -/
lemma seen_stable_step (l r : String → Option String) (st : RecState) (a : Ann)
    (fid v : String) (h : lookupA st.seen_files fid = some v) :
    lookupA (processAnn l r st a).seen_files fid = some v := by
  cases ha : a.file_citation with
  | none => simpa [processAnn, ha] using h
  | some g =>
    have hseen := cacheStep_seen_files r st g
    cases hl : l ((cacheStep r st g).1) with
    | none =>
      simp only [processAnn, ha, hl, hseen]
      exact h
    | some link =>
      cases hs : lookupA st.seen_files g with
      | some ex =>
        simp only [processAnn, ha, hl, hseen, hs]
        exact h
      | none =>
        have hg : fid ≠ g := by
          intro he
          rw [he] at h
          rw [h] at hs
          exact Option.noConfusion hs
        simp only [processAnn, ha, hl, hseen, hs]
        rw [lookupA_updateA_ne _ _ _ _ hg]
        exact h

/-- `seen_files` entries persist through the rest of the loop. -/
lemma seen_stable_fold (l r : String → Option String) (anns : List Ann)
    (fid v : String) :
    ∀ st, lookupA st.seen_files fid = some v →
      lookupA (runFrom l r st anns).seen_files fid = some v := by
  induction anns with
  | nil => intro st h; exact h
  | cons a rest ih => intro st h; exact ih _ (seen_stable_step l r st a fid v h)

/-- Once an annotation with a linked identifier occurs in the list, the
loop ends with that identifier recorded in `seen_files`. -/
lemma seen_set_fold (l r : String → Option String) (anns : List Ann) (a : Ann)
    (fid : String) (hmem : a ∈ anns) (ha : a.file_citation = some fid)
    (hyes : (l (resolveName r fid)).isSome = true) :
    ∀ st, CacheInv r st →
      ∃ v, lookupA (runFrom l r st anns).seen_files fid = some v := by
  obtain ⟨s1, s2, rfl⟩ := List.append_of_mem hmem
  intro st hC
  rw [runFrom_append, runFrom_cons]
  have hC1 : CacheInv r (runFrom l r st s1) := cacheInv_fold l r s1 st hC
  obtain ⟨v, _, hsv⟩ := map_accept_step l r _ a fid ha hC1 hyes
  exact ⟨v, seen_stable_fold l r s2 fid v _ hsv⟩

/-- If every annotation carrying a given marker is link-rejected, the
final rewrite table maps that marker to the empty string (once at least
one such annotation occurred or the entry was already the empty string). -/
lemma map_reject_fold (l r : String → Option String) (anns : List Ann)
    (m : String)
    (hall : ∀ b ∈ anns, b.text = m → ∀ g, b.file_citation = some g →
      l (resolveName r g) = none) :
    ∀ st, CacheInv r st →
      (lookupA st.citation_mapping m = some "" →
        lookupA (runFrom l r st anns).citation_mapping m = some "") ∧
      ((∃ a ∈ anns, a.text = m ∧ a.file_citation.isSome = true) →
        lookupA (runFrom l r st anns).citation_mapping m = some "") := by
  induction anns with
  | nil =>
    intro st _
    exact ⟨fun h => h, fun h => by simp at h⟩
  | cons b rest ih =>
    intro st hC
    have hC1 : CacheInv r (processAnn l r st b) := cacheInv_step l r st b hC
    have hall' : ∀ x ∈ rest, x.text = m → ∀ g, x.file_citation = some g →
        l (resolveName r g) = none :=
      fun x hx => hall x (List.mem_cons_of_mem _ hx)
    have hstep : ∀ hcur : lookupA (processAnn l r st b).citation_mapping m = some "",
        lookupA (runFrom l r st (b :: rest)).citation_mapping m = some "" := by
      intro hcur
      rw [runFrom_cons]
      exact (ih hall' _ hC1).1 hcur
    constructor
    · intro hm
      by_cases hb : b.text = m ∧ b.file_citation.isSome = true
      · obtain ⟨g, hg⟩ := Option.isSome_iff_exists.mp hb.2
        have hrej := map_reject_step l r st b g hg hC
          (hall b (List.mem_cons_self _ _) hb.1 g hg)
        rw [hb.1] at hrej
        exact hstep hrej
      · rcases not_and_or.mp hb with h1 | h2
        · by_cases hbf : b.file_citation = none
          · refine hstep ?_
            rw [map_unchanged_step l r st b m (Or.inl hbf)]
            exact hm
          · refine hstep ?_
            rw [map_unchanged_step l r st b m (Or.inr (by tauto))]
            exact hm
        · have hbn : b.file_citation = none := by
            cases hb2 : b.file_citation
            · rfl
            · rw [hb2] at h2; simp at h2
          refine hstep ?_
          rw [map_unchanged_step l r st b m (Or.inl hbn)]
          exact hm
    · rintro ⟨a, haa, hat, hfid⟩
      rcases List.mem_cons.mp haa with rfl | hmem
      · obtain ⟨g, hg⟩ := Option.isSome_iff_exists.mp hfid
        have hrej := map_reject_step l r st a g hg hC
          (hall a (List.mem_cons_self _ _) hat g hg)
        rw [hat] at hrej
        exact hstep hrej
      · rw [runFrom_cons]
        exact (ih hall' _ hC1).2 ⟨a, hmem, hat, hfid⟩

/-- When every annotation carrying marker `m` cites the (linked)
identifier `fid`, the rewrite entry for `m` and the `seen_files` entry for
`fid` end up holding the same display marker. -/
lemma map_accept_fold (l r : String → Option String) (anns : List Ann)
    (m fid : String)
    (hall : ∀ b ∈ anns, b.text = m → b.file_citation = some fid)
    (hyes : (l (resolveName r fid)).isSome = true) :
    ∀ st, CacheInv r st →
      ((∃ v, lookupA st.citation_mapping m = some v ∧
          lookupA st.seen_files fid = some v) →
        ∃ v, lookupA (runFrom l r st anns).citation_mapping m = some v ∧
          lookupA (runFrom l r st anns).seen_files fid = some v) ∧
      ((∃ a ∈ anns, a.text = m) →
        ∃ v, lookupA (runFrom l r st anns).citation_mapping m = some v ∧
          lookupA (runFrom l r st anns).seen_files fid = some v) := by
  induction anns with
  | nil =>
    intro st _
    exact ⟨fun h => h, fun h => by simp at h⟩
  | cons b rest ih =>
    intro st hC
    have hC1 : CacheInv r (processAnn l r st b) := cacheInv_step l r st b hC
    have hall' : ∀ x ∈ rest, x.text = m → x.file_citation = some fid :=
      fun x hx => hall x (List.mem_cons_of_mem _ hx)
    have hstep : (∃ v, lookupA (processAnn l r st b).citation_mapping m = some v ∧
        lookupA (processAnn l r st b).seen_files fid = some v) →
        ∃ v, lookupA (runFrom l r st (b :: rest)).citation_mapping m = some v ∧
          lookupA (runFrom l r st (b :: rest)).seen_files fid = some v := by
      intro hcur
      rw [runFrom_cons]
      exact (ih hall' _ hC1).1 hcur
    have haccept : b.text = m →
        ∃ v, lookupA (processAnn l r st b).citation_mapping m = some v ∧
          lookupA (processAnn l r st b).seen_files fid = some v := by
      intro hb
      have hbf := hall b (List.mem_cons_self _ _) hb
      obtain ⟨v, hv1, hv2⟩ := map_accept_step l r st b fid hbf hC hyes
      rw [hb] at hv1
      exact ⟨v, hv1, hv2⟩
    constructor
    · rintro ⟨v, hm, hsv⟩
      by_cases hb : b.text = m
      · exact hstep (haccept hb)
      · refine hstep ⟨v, ?_, seen_stable_step l r st b fid v hsv⟩
        rw [map_unchanged_step l r st b m (Or.inr hb)]
        exact hm
    · rintro ⟨a, haa, hat⟩
      rcases List.mem_cons.mp haa with rfl | hmem
      · exact hstep (haccept hat)
      · rw [runFrom_cons]
        exact (ih hall' _ hC1).2 ⟨a, hmem, hat⟩

/-- No citation is produced for an identifier whose resolved name has no
download link. -/
lemma no_citation_of_no_link (l r : String → Option String) (st : RecState)
    (fid : String) (hCit : CitInv l r st)
    (hno : l (resolveName r fid) = none) :
    ∀ c ∈ st.citations, c.file_id ≠ fid := by
  intro c hc he
  have h3 := (hCit c hc).2.2
  rw [he, hno] at h3
  cases h3

/-- From the seen-files invariant: a recorded identifier has exactly one
citation, carrying the recorded display marker. -/
lemma filter_singleton_of_seen (st : RecState) (fid v : String)
    (hSeen : SeenInv st) (hs : lookupA st.seen_files fid = some v) :
    ∃ c, (st.citations.filter fun c => c.file_id == fid) = [c] ∧ c.text = v := by
  have h := hSeen fid
  rw [hs] at h
  cases hf : st.citations.filter fun c => c.file_id == fid with
  | nil => rw [hf] at h; simp at h
  | cons c t =>
    rw [hf] at h
    simp only [List.map_cons, Option.toList_some] at h
    have h1 : c.text = v := (List.cons_eq_cons.mp h).1
    have h2 : t.map (fun c => c.text) = [] := (List.cons_eq_cons.mp h).2
    have ht : t = [] := List.map_eq_nil_iff.mp h2
    exact ⟨c, by rw [ht], h1⟩

/-- Single-pattern text fidelity: the characters outside every occurrence
of the pattern form a subsequence of the replaced text. -/
lemma unmarked_sub_replaceL (s pat rep : List Char) :
    unmarked [pat] s <+ replaceL s pat rep := by
  cases pat with
  | nil =>
    rw [unmarked, uncovAuxM_nil_pat]
    simp only [replaceL]
    exact inter_sublist rep s
  | cons p ps =>
    simp only [replaceL, unmarked]
    exact uncov_replaceAux p ps rep s 0 0 le_rfl

/-- When every annotation that has a file citation carries the same
literal marker, the rewrite table ends up empty or a single entry for that
marker. -/
lemma mapping_shape_fold (l r : String → Option String) (anns : List Ann)
    (m : String) (hm : ∀ a ∈ anns, a.file_citation.isSome = true → a.text = m) :
    ∀ st, (st.citation_mapping = [] ∨ ∃ v, st.citation_mapping = [(m, v)]) →
      ((runFrom l r st anns).citation_mapping = [] ∨
        ∃ v, (runFrom l r st anns).citation_mapping = [(m, v)]) := by
  induction anns with
  | nil => intro st h; exact h
  | cons a rest ih =>
    intro st h
    have hm' : ∀ x ∈ rest, x.file_citation.isSome = true → x.text = m :=
      fun x hx => hm x (List.mem_cons_of_mem _ hx)
    rw [runFrom_cons]
    refine ih hm' _ ?_
    cases ha : a.file_citation with
    | none => simpa [processAnn, ha] using h
    | some fid =>
      have hat : a.text = m := hm a (List.mem_cons_self _ _) (by rw [ha]; rfl)
      have hmap := cacheStep_citation_mapping r st fid
      have hseen := cacheStep_seen_files r st fid
      have hsh : ∀ w, (updateA st.citation_mapping a.text w = [] ∨
          ∃ v, updateA st.citation_mapping a.text w = [(m, v)]) := by
        intro w
        rcases h with h0 | ⟨v, h0⟩
        · right
          exact ⟨w, by rw [h0, hat]; simp [updateA]⟩
        · right
          refine ⟨w, ?_⟩
          rw [h0, hat]
          simp [updateA]
      cases hl : l ((cacheStep r st fid).1) with
      | none =>
        simp only [processAnn, ha, hl, hmap]
        exact hsh ""
      | some link =>
        cases hs : lookupA st.seen_files fid with
        | some ex =>
          simp only [processAnn, ha, hl, hmap, hseen, hs]
          exact hsh ex
        | none =>
          simp only [processAnn, ha, hl, hmap, hseen, hs]
          exact hsh _

/-- Unfolding: an empty rewrite table leaves the text unchanged. -/
lemma applyMapping_nil (t : String) : applyMapping [] t = t := rfl

/-- Unfolding: a one-entry rewrite table is one `str.replace`. -/
lemma applyMapping_single (k v : String) (t : String) :
    applyMapping [(k, v)] t = pyReplace t k v := rfl

/-- Unfolding: the final text of a pass. -/
lemma process_finalText (raw : String) (anns : List Ann)
    (l r : String → Option String) :
    (process raw anns l r).finalText =
      applyMapping (runRec anns l r).citation_mapping raw := rfl

/-- Unfolding: the citation list of a pass. -/
lemma process_citations (raw : String) (anns : List Ann)
    (l r : String → Option String) :
    (process raw anns l r).citations = (runRec anns l r).citations := rfl

/-- The poll loop performs at most `fuel` further checks, strictly fewer
when it breaks on a terminal status. -/
lemma pollGo_le (runs : Nat → RunInfo) :
    ∀ fuel iters, (pollGo runs iters fuel).1 ≤ iters + fuel ∧
      ((pollGo runs iters fuel).2.isSome = true →
        (pollGo runs iters fuel).1 < iters + fuel) := by
  intro fuel
  induction fuel with
  | zero =>
    intro iters
    constructor
    · simp [pollGo]
    · intro h
      simp [pollGo] at h
  | succ f ih =>
    intro iters
    by_cases ht : (runs iters).status ∈ terminalStatuses
    · constructor
      · simp [pollGo, ht]
      · intro _
        simp [pollGo, ht]
    · have h2 := ih (iters + 1)
      constructor
      · have hb := h2.1
        simp only [pollGo, if_neg ht]
        omega
      · intro hsome
        simp only [pollGo, if_neg ht] at hsome ⊢
        have hb := h2.2 hsome
        omega

/-- The poll loop exhausts its budget exactly when no check in the budget
window returns a terminal status. -/
lemma pollGo_none_iff (runs : Nat → RunInfo) :
    ∀ fuel iters, (pollGo runs iters fuel).2 = none ↔
      ∀ k < fuel, (runs (iters + k)).status ∉ terminalStatuses := by
  intro fuel
  induction fuel with
  | zero =>
    intro iters
    simp [pollGo]
  | succ f ih =>
    intro iters
    by_cases ht : (runs iters).status ∈ terminalStatuses
    · constructor
      · intro h
        simp [pollGo, ht] at h
      · intro h
        have h0 := h 0 (Nat.succ_pos f)
        rw [Nat.add_zero] at h0
        exact absurd ht h0
    · have hred : (pollGo runs iters (f + 1)).2 = (pollGo runs (iters + 1) f).2 := by
        simp [pollGo, if_neg ht]
      rw [hred, ih (iters + 1)]
      constructor
      · intro h k hk
        cases k with
        | zero =>
          rw [Nat.add_zero]
          exact ht
        | succ k2 =>
          have h2 := h k2 (by omega)
          have he : iters + 1 + k2 = iters + (k2 + 1) := by omega
          rw [he] at h2
          exact h2
      · intro h k hk
        have h2 := h (k + 1) (by omega)
        have he : iters + (k + 1) = iters + 1 + k := by omega
        rw [he] at h2
        exact h2

/-- The run phase raises the timeout exactly when the poll budget was
exhausted. -/
lemma chatRunPhase_timeout_iff (runs : Nat → RunInfo) :
    chatRunPhase runs = ChatOutcome.timeout ↔ (pollRun runs).2 = none := by
  rcases hpr : pollRun runs with ⟨i, o⟩
  cases o with
  | none => simp [chatRunPhase, hpr]
  | some rs =>
    simp only [chatRunPhase, hpr]
    constructor
    · intro h
      exfalso
      split_ifs at h
    · intro h
      exact absurd h (by simp)

/-- C1: in every reconciliation pass, the display markers of the returned
citation list are exactly the strings `"[1]", ..., "[k]"` in order — the
i-th citation (first-acceptance order) carries marker `"[i]"`, with no
gaps and no repeats. -/
theorem citation_markers_dense (raw : String) (anns : List Ann)
    (linker resolver : String → Option String) :
    ((process raw anns linker resolver).citations.map fun c => c.text) =
      ((List.range (process raw anns linker resolver).citations.length).map
        fun i => "[" ++ toString (i + 1) ++ "]") := by
  have h := (inv_runRec anns linker resolver).2.2.2.1
  rw [process_citations]
  exact h

/-- Witness for C1 at a concrete pass. -/
theorem citation_markers_dense_witness :
    ((process "x" [⟨"†1", some "f"⟩] (fun _ => some "L")
        (fun _ => some "A")).citations.map fun c => c.text) =
      ((List.range (process "x" [⟨"†1", some "f"⟩] (fun _ => some "L")
          (fun _ => some "A")).citations.length).map
        fun i => "[" ++ toString (i + 1) ++ "]") :=
  citation_markers_dense "x" [⟨"†1", some "f"⟩] (fun _ => some "L")
    (fun _ => some "A")

/-- C2: if an identifier with a linked resolved name is cited by some
annotation, exactly one ResolvedCitation is produced for it, and the
marker of each such annotation rewrites to that citation's display marker
(the one assigned at first acceptance), provided no annotation with the
same literal marker cites a different identifier (the marker-collision
proviso of the claim). -/
theorem dedup_single_citation (anns : List Ann)
    (linker resolver : String → Option String) (fid : String)
    (hlink : (linker (resolveName resolver fid)).isSome = true)
    (hex : ∃ a ∈ anns, a.file_citation = some fid) :
    ((runRec anns linker resolver).citations.filter
        fun c => c.file_id == fid).length = 1 ∧
    (∀ a ∈ anns, a.file_citation = some fid →
      (∀ b ∈ anns, b.text = a.text → b.file_citation = some fid) →
      ∃ c, ((runRec anns linker resolver).citations.filter
          fun c => c.file_id == fid) = [c] ∧
        lookupA (runRec anns linker resolver).citation_mapping a.text =
          some c.text) := by
  obtain ⟨a0, ha0, ha0f⟩ := hex
  have hSeen : SeenInv (runRec anns linker resolver) :=
    (inv_runRec anns linker resolver).2.2.1
  constructor
  · obtain ⟨v0, hs0⟩ := seen_set_fold linker resolver anns a0 fid ha0 ha0f hlink
      initState (fun p hp => by simp [initState] at hp)
    obtain ⟨c, hc1, _⟩ := filter_singleton_of_seen
      (runRec anns linker resolver) fid v0 hSeen hs0
    rw [hc1]
    rfl
  · intro a ha haf hcoll
    have hmf := map_accept_fold linker resolver anns a.text fid hcoll hlink
      initState (fun p hp => by simp [initState] at hp)
    obtain ⟨v, hv1, hv2⟩ := hmf.2 ⟨a, ha, rfl⟩
    obtain ⟨c, hc1, hc2⟩ := filter_singleton_of_seen
      (runRec anns linker resolver) fid v hSeen hv2
    refine ⟨c, hc1, ?_⟩
    rw [hc2]
    exact hv1

/-- Witness for C2: two annotations citing the same linked file produce
one citation. -/
theorem dedup_single_citation_witness :
    ((runRec [⟨"†1", some "f1"⟩, ⟨"†2", some "f1"⟩] (fun _ => some "L")
        (fun _ => some "A")).citations.filter
      fun c => c.file_id == "f1").length = 1 :=
  (dedup_single_citation [⟨"†1", some "f1"⟩, ⟨"†2", some "f1"⟩]
    (fun _ => some "L") (fun _ => some "A") "f1" rfl (by decide)).1

/-- C3 counterexample: with raw text `"aabb"` and sole marker `"ab"`
(link-rejected), the pass maps the marker to the empty string and yields
no citation, yet the output text is exactly `"ab"` — deletion of the two
occurrences makes the surrounding characters recombine into a fresh
occurrence of the marker, so the marker is not deleted from the output
text; moreover a later annotation with the identical marker string can
overwrite the deletion entry (second scenario: the final entry is
`"[1]"`, not the empty string). -/
theorem link_gating_deletion_cex :
    ((process "aabb" [⟨"ab", some "f"⟩] (fun _ => none)
        (fun _ => none)).citations = [] ∧
      lookupA (runRec [⟨"ab", some "f"⟩] (fun _ => none)
        (fun _ => none)).citation_mapping "ab" = some "" ∧
      (process "aabb" [⟨"ab", some "f"⟩] (fun _ => none)
        (fun _ => none)).finalText = "ab" ∧
      containsSubB (process "aabb" [⟨"ab", some "f"⟩] (fun _ => none)
        (fun _ => none)).finalText.data "ab".data = true) ∧
    lookupA (runRec [⟨"m", some "g1"⟩, ⟨"m", some "g2"⟩]
        (fun n => if n = "N2" then some "L" else none)
        (fun g => if g = "g2" then some "N2" else some "N1")).citation_mapping
      "m" = some "[1]" := by
  decide

/-- C3 amended: an annotation whose resolved file name has no download
link produces no ResolvedCitation for its identifier, and — provided every
annotation sharing its literal marker is also link-rejected — its marker's
entry in the rewrite table is the empty string, so the occurrences of the
marker present when its rewrite step is applied are removed (adjacent text
may recombine into new occurrences of the marker, which remain). -/
theorem link_gating_amended (anns : List Ann)
    (linker resolver : String → Option String) (a : Ann) (fid : String)
    (ha : a ∈ anns) (haf : a.file_citation = some fid)
    (hno : linker (resolveName resolver fid) = none)
    (hcoll : ∀ b ∈ anns, b.text = a.text → ∀ g, b.file_citation = some g →
      linker (resolveName resolver g) = none) :
    (∀ c ∈ (runRec anns linker resolver).citations, c.file_id ≠ fid) ∧
    lookupA (runRec anns linker resolver).citation_mapping a.text = some "" := by
  constructor
  · exact no_citation_of_no_link linker resolver _ fid
      (inv_runRec anns linker resolver).2.1 hno
  · exact (map_reject_fold linker resolver anns a.text hcoll initState
      (fun p hp => by simp [initState] at hp)).2 ⟨a, ha, rfl, by rw [haf]; rfl⟩

/-- Witness for the amended C3 at a concrete pass. -/
theorem link_gating_amended_witness :
    lookupA (runRec [⟨"ab", some "f"⟩] (fun _ => none)
      (fun _ => none)).citation_mapping "ab" = some "" :=
  (link_gating_amended [⟨"ab", some "f"⟩] (fun _ => none) (fun _ => none)
    ⟨"ab", some "f"⟩ "f" (by decide) rfl rfl
    (fun b _ _ g _ => rfl)).2

/-- C4 counterexample: with raw text `"aba"` and the two (link-rejected)
markers `"b"` and `"aa"`, the characters at positions 0 and 2 are outside
every occurrence of every marker, yet the final text is empty — the
sequential rewrites let an earlier deletion create a fresh occurrence of a
later marker, so characters outside all original marker occurrences are
not preserved. -/
theorem text_fidelity_cex :
    unmarked ["b".data, "aa".data] "aba".data = ['a', 'a'] ∧
    (process "aba" [⟨"b", some "f1"⟩, ⟨"aa", some "f2"⟩]
      (fun _ => none) (fun _ => none)).finalText = "" ∧
    ¬ (unmarked ["b".data, "aa".data] "aba".data <+
        (process "aba" [⟨"b", some "f1"⟩, ⟨"aa", some "f2"⟩]
          (fun _ => none) (fun _ => none)).finalText.data) := by
  refine ⟨by decide, by decide, ?_⟩
  intro h
  have h1 : (process "aba" [⟨"b", some "f1"⟩, ⟨"aa", some "f2"⟩]
      (fun _ => none) (fun _ => none)).finalText.data = [] := by decide
  have h2 : unmarked ["b".data, "aa".data] "aba".data = ['a', 'a'] := by decide
  rw [h1, h2] at h
  exact absurd (List.sublist_nil.mp h) (by decide)

/-- C4 amended: when all annotations carrying a file citation share one
literal marker (so the rewrite table has at most one entry), every
character of the raw text outside every occurrence of that marker appears
unchanged, in order, in the final text; with several distinct markers the
guarantee can fail because sequential rewrites may create new occurrences
of later markers. -/
theorem text_fidelity_amended (raw : String) (anns : List Ann)
    (linker resolver : String → Option String) (m : String)
    (hm : ∀ a ∈ anns, a.file_citation.isSome = true → a.text = m) :
    unmarked [m.data] raw.data <+
      (process raw anns linker resolver).finalText.data := by
  have hsh := mapping_shape_fold linker resolver anns m hm initState (Or.inl rfl)
  rw [process_finalText]
  rcases hsh with h | ⟨v, h⟩
  · have h' : (runRec anns linker resolver).citation_mapping = [] := h
    rw [h', applyMapping_nil]
    exact uncovAuxM_sublist [m.data] raw.data 0
  · have h' : (runRec anns linker resolver).citation_mapping = [(m, v)] := h
    rw [h', applyMapping_single]
    exact unmarked_sub_replaceL raw.data m.data v.data

/-- Witness for the amended C4 at a concrete pass. -/
theorem text_fidelity_amended_witness :
    unmarked ["a".data] "xax".data <+
      (process "xax" [⟨"a", some "f"⟩] (fun _ => none)
        (fun _ => none)).finalText.data :=
  text_fidelity_amended "xax" [⟨"a", some "f"⟩] (fun _ => none)
    (fun _ => none) "a" (by decide)

/-- C5: the rewrite is keyed by the literal marker text — when two
different (accepted) annotations produce the identical marker string, the
table retains only the last mapping for that key, and the whole-text
substitution replaces every occurrence of the marker with the last
writer's replacement `"[2]"` (while both citations stay in the list). -/
theorem marker_collision_last_write (raw m f1 f2 : String)
    (linker resolver : String → Option String) (hne : f1 ≠ f2)
    (h1 : (linker (resolveName resolver f1)).isSome = true)
    (h2 : (linker (resolveName resolver f2)).isSome = true) :
    (runRec [⟨m, some f1⟩, ⟨m, some f2⟩] linker resolver).citation_mapping =
      [(m, "[2]")] ∧
    (runRec [⟨m, some f1⟩, ⟨m, some f2⟩] linker resolver).citations.length = 2 ∧
    (process raw [⟨m, some f1⟩, ⟨m, some f2⟩] linker resolver).finalText =
      pyReplace raw m "[2]" := by
  obtain ⟨l1, hl1⟩ := Option.isSome_iff_exists.mp h1
  obtain ⟨l2, hl2⟩ := Option.isSome_iff_exists.mp h2
  have hne' : f2 ≠ f1 := Ne.symm hne
  have hts : ("[" ++ toString (2 : Nat) ++ "]" : String) = "[2]" := by decide
  refine ⟨?_, ?_, ?_⟩ <;>
    simp [runRec, runFrom, process, applyMapping, processAnn, cacheStep,
      initState, lookupA, updateA, hl1, hl2, hne', hts]

/-- Witness for C5 at a concrete pass. -/
theorem marker_collision_last_write_witness :
    (runRec [⟨"†", some "a"⟩, ⟨"†", some "b"⟩] (fun _ => some "L")
      (fun _ => some "N")).citation_mapping = [("†", "[2]")] :=
  (marker_collision_last_write "x" "†" "a" "b" (fun _ => some "L")
    (fun _ => some "N") (by decide) rfl rfl).1

/-- C6: when the upstream metadata lookup fails for an identifier, the
pass continues with the fallback display name built from the last 8
characters of the identifier — producing a citation carrying that name and
its link when the index has one, and no citation for the identifier when
it does not; the embedded pass is a total function, so no exception
escapes. -/
theorem resolver_fallback (anns : List Ann)
    (linker resolver : String → Option String) (a : Ann) (fid : String)
    (ha : a ∈ anns) (haf : a.file_citation = some fid)
    (hres : resolver fid = none) :
    ((linker ("Archivo " ++ lastChars fid 8)).isSome = true →
      ∃ c ∈ (runRec anns linker resolver).citations,
        c.file_id = fid ∧ c.file_name = "Archivo " ++ lastChars fid 8 ∧
        c.download_link = linker ("Archivo " ++ lastChars fid 8)) ∧
    (linker ("Archivo " ++ lastChars fid 8) = none →
      ∀ c ∈ (runRec anns linker resolver).citations, c.file_id ≠ fid) := by
  have hrn : resolveName resolver fid = "Archivo " ++ lastChars fid 8 := by
    simp [resolveName, hres]
  constructor
  · intro hlink
    have hlink' : (linker (resolveName resolver fid)).isSome = true := by
      rw [hrn]
      exact hlink
    obtain ⟨v, hs⟩ := seen_set_fold linker resolver anns a fid ha haf hlink'
      initState (fun p hp => by simp [initState] at hp)
    have hSeen : SeenInv (runRec anns linker resolver) :=
      (inv_runRec anns linker resolver).2.2.1
    obtain ⟨c, hc1, _⟩ := filter_singleton_of_seen
      (runRec anns linker resolver) fid v hSeen hs
    have hcmem : c ∈ (runRec anns linker resolver).citations.filter
        fun c => c.file_id == fid := by
      rw [hc1]
      exact List.mem_singleton.mpr rfl
    have hcid : c.file_id = fid := by
      have hf := List.mem_filter.mp hcmem
      simpa using hf.2
    obtain ⟨hn, hd, _⟩ := (inv_runRec anns linker resolver).2.1 c
      (List.mem_of_mem_filter hcmem)
    refine ⟨c, List.mem_of_mem_filter hcmem, hcid, ?_, ?_⟩
    · rw [hn, hcid, hrn]
    · rw [hd, hcid, hrn]
  · intro hnone
    refine no_citation_of_no_link linker resolver _ fid
      (inv_runRec anns linker resolver).2.1 ?_
    rw [hrn]
    exact hnone

/-- Witness for C6: a failed lookup with a linked fallback name yields the
fallback-named citation. -/
theorem resolver_fallback_witness :
    ∃ c ∈ (runRec [⟨"†", some "abc"⟩]
        (fun n => if n = "Archivo abc" then some "L" else none)
        (fun _ => none)).citations,
      c.file_id = "abc" ∧ c.file_name = "Archivo " ++ lastChars "abc" 8 ∧
      c.download_link = (fun n => if n = "Archivo abc" then some "L" else none)
        ("Archivo " ++ lastChars "abc" 8) :=
  (resolver_fallback [⟨"†", some "abc"⟩]
    (fun n => if n = "Archivo abc" then some "L" else none) (fun _ => none)
    ⟨"†", some "abc"⟩ "abc" (by decide) rfl rfl).1 (by decide)

/-- C7: the poll loop performs at most 60 status checks; the timeout is
raised exactly when none of the checks in the 60-attempt budget returns a
terminal status; and on the sequence queued, in-progress, in-progress,
completed the run phase succeeds after exactly 4 checks. -/
theorem poll_bound_and_timeout :
    (∀ runs : Nat → RunInfo, checksPerformed runs ≤ max_iterations ∧
      (chatRunPhase runs = ChatOutcome.timeout ↔
        ∀ i < max_iterations, (runs i).status ∉ terminalStatuses)) ∧
    checksPerformed exampleRuns = 4 ∧
    chatRunPhase exampleRuns = ChatOutcome.success ⟨"completed", ""⟩ := by
  refine ⟨?_, by decide, by decide⟩
  intro runs
  constructor
  · have h := pollGo_le runs max_iterations 0
    unfold checksPerformed pollRun
    rcases hpr : pollGo runs 0 max_iterations with ⟨i, o⟩
    rw [hpr] at h
    cases o with
    | none =>
      change i ≤ max_iterations
      have hb := h.1
      omega
    | some rs =>
      change i + 1 ≤ max_iterations
      have hb := h.2 rfl
      omega
  · rw [chatRunPhase_timeout_iff]
    unfold pollRun
    rw [pollGo_none_iff runs max_iterations 0]
    constructor
    · intro h i hi
      have h2 := h i hi
      rwa [Nat.zero_add] at h2
    · intro h k hk
      rw [Nat.zero_add]
      exact h k hk

/-- Witness for C7 at the scenario sequence. -/
theorem poll_bound_and_timeout_witness :
    checksPerformed exampleRuns ≤ max_iterations :=
  (poll_bound_and_timeout.1 exampleRuns).1

/-- C8 counterexample: on a run whose first status is `cancelled` with
upstream error detail `"boom"`, the chat run phase raises the generic
unexpected-status error whose message does not contain the upstream error
detail — only the `failed` status carries `last_error`. -/
theorem cancelled_detail_cex :
    chatRunPhase (fun _ => ⟨"cancelled", "boom"⟩) =
      ChatOutcome.unexpectedStatus "Run ended with unexpected status: cancelled" ∧
    containsSubB "Run ended with unexpected status: cancelled".data
      "boom".data = false := by
  constructor
  · decide
  · decide

/-- C8 amended: a terminal `failed` status raises a chat-level error
carrying the upstream `last_error` detail, while a terminal `cancelled`
status raises a chat-level error carrying only the status string (not the
upstream error detail). -/
theorem terminal_failure_amended (runs : Nat → RunInfo) (i : Nat) (rs : RunInfo)
    (hpr : pollRun runs = (i, some rs)) :
    (rs.status = "failed" →
      chatRunPhase runs = ChatOutcome.runFailed ("Run failed: " ++ rs.last_error)) ∧
    (rs.status = "cancelled" →
      chatRunPhase runs = ChatOutcome.unexpectedStatus
        ("Run ended with unexpected status: " ++ rs.status)) := by
  constructor
  · intro h
    simp [chatRunPhase, hpr, h]
  · intro h
    simp [chatRunPhase, hpr, h]

/-- Witness for the amended C8 on a failing run. -/
theorem terminal_failure_amended_witness :
    chatRunPhase (fun _ => ⟨"failed", "err"⟩) =
      ChatOutcome.runFailed ("Run failed: " ++ RunInfo.last_error ⟨"failed", "err"⟩) :=
  (terminal_failure_amended (fun _ => ⟨"failed", "err"⟩) 0 ⟨"failed", "err"⟩
    (by decide)).1 rfl

/-- C9 counterexample: on a missing (or malformed) reference document the
loader emits an error-level log message and no warning-level one, so the
claim's "logs a warning" does not match the code. -/
theorem reference_load_log_level_cex :
    (sourceLinkerInit RefDoc.missing).logs = [LogLevel.error] ∧
    LogLevel.warning ∉ (sourceLinkerInit RefDoc.missing).logs ∧
    (sourceLinkerInit RefDoc.malformed).logs = [LogLevel.error] ∧
    LogLevel.warning ∉ (sourceLinkerInit RefDoc.malformed).logs := by
  decide

/-- C9 amended: loading the reference index never raises (the embedded
loader is total over its failure modes): for a missing reference file or a
malformed reference document it returns an empty index — both lookup maps
empty, so the link lookup is absent for every input — and logs an
error-level message (warnings are logged per invalid record of an
otherwise well-formed document), and the pipeline continues. -/
theorem reference_load_soft_fail :
    (∀ f, get_download_link (sourceLinkerInit RefDoc.missing) f = none ∧
      get_download_link (sourceLinkerInit RefDoc.malformed) f = none ∧
      get_title (sourceLinkerInit RefDoc.missing) f = none ∧
      get_title (sourceLinkerInit RefDoc.malformed) f = none) ∧
    (sourceLinkerInit RefDoc.missing).file_to_link = [] ∧
    (sourceLinkerInit RefDoc.missing).file_to_title = [] ∧
    (sourceLinkerInit RefDoc.malformed).file_to_link = [] ∧
    (sourceLinkerInit RefDoc.malformed).file_to_title = [] ∧
    (sourceLinkerInit RefDoc.missing).logs = [LogLevel.error] ∧
    (sourceLinkerInit RefDoc.malformed).logs = [LogLevel.error] := by
  refine ⟨?_, rfl, rfl, rfl, rfl, rfl, rfl⟩
  intro f
  exact ⟨rfl, rfl, rfl, rfl⟩

/-- Witness for the amended C9 at a concrete file name. -/
theorem reference_load_soft_fail_witness :
    get_download_link (sourceLinkerInit RefDoc.missing) "x" = none :=
  (reference_load_soft_fail.1 "x").1

/-- C10: within one pass the resolver is called at most once per distinct
identifier (the call log has no duplicates and matches the cache keys),
and every cached name — fallback included — is the deterministic
resolution of its identifier, so later annotations reuse it. -/
theorem resolver_called_once (anns : List Ann)
    (linker resolver : String → Option String) :
    (runRec anns linker resolver).resolverCalls.Nodup ∧
    (∀ p ∈ (runRec anns linker resolver).file_cache,
      p.2 = resolveName resolver p.1) ∧
    (∀ fid, fid ∈ (runRec anns linker resolver).resolverCalls ↔
      (lookupA (runRec anns linker resolver).file_cache fid).isSome = true) := by
  have h := inv_runRec anns linker resolver
  exact ⟨h.2.2.2.2.1, h.1, h.2.2.2.2.2⟩

/-- Witness for C10 at a concrete pass with a repeated identifier. -/
theorem resolver_called_once_witness :
    (runRec [⟨"†", some "f"⟩, ⟨"‡", some "f"⟩] (fun _ => none)
      (fun _ => none)).resolverCalls.Nodup :=
  (resolver_called_once [⟨"†", some "f"⟩, ⟨"‡", some "f"⟩] (fun _ => none)
    (fun _ => none)).1

end Fares
